import Mathlib

/-!
Verification development for the `tmpl` comment-based template engine
(`tmpl.js`).  Files are modelled as lists of lines, a line being a list of
characters.  The definitions below are shallow embeddings of the functions
of `tmpl.js`: `parseTemplateLine`, `getCommentIndent`,
`parseTemplateContent`, `parseFile` (scanner loop, fuel-indexed),
`generateBlockContent` (resolver) and `generateOutput` (patcher).
-/

deriving instance DecidableEq for Except

namespace Tmpl

/-- A single line of a file, as a list of characters. -/
abbrev Line := List Char

/-- Shorthand to build a `Line` from a string literal. -/
def l (s : String) : Line := s.toList

/-- JavaScript whitespace class `\s` (restricted to the ASCII part that can
occur in a line of a text file). -/
def isWs (c : Char) : Bool :=
  c == ' ' || c == '\t' || c == '\n' || c == '\r' || c == '\x0b' || c == '\x0c'

/-- Remove trailing whitespace. -/
def trimEnd (s : Line) : Line := (s.reverse.dropWhile isWs).reverse

/-- JavaScript `String.prototype.trim`: remove leading and trailing
whitespace. -/
def jsTrim (s : Line) : Line := trimEnd (s.dropWhile isWs)

/-- JavaScript word-character class `\w` = `[A-Za-z0-9_]`. -/
def isWordChar (c : Char) : Bool := c.isAlphanum || c == '_'

/-- Split on runs of whitespace (JavaScript `split(/\s+/)` applied to a
string with no leading whitespace, which is the only way it is used). -/
def splitWsAux : Line → Line → List Line
  | [], acc => if acc.isEmpty then [] else [acc.reverse]
  | c :: cs, acc =>
    if isWs c then
      if acc.isEmpty then splitWsAux cs [] else acc.reverse :: splitWsAux cs []
    else splitWsAux cs (c :: acc)

def splitWs (s : Line) : List Line := splitWsAux s []

/-- The directives recognised by `parseTemplateLine` (`tmpl.js` lines
35-62). `other` covers any unrecognised `@word` command. -/
inductive Directive where
  | blockDefault (id : Line)
  | blockMarker (id : Line)
  | blockReplace (id : Line)
  | blockAppend (id : Line)
  | endBlock
  | other (cmd : Line) (args : List Line)
deriving Repr, DecidableEq

/-- Is the directive one of the four block-role directives
(`directive.isBlock` in `tmpl.js`)? -/
def Directive.isBlock : Directive → Bool
  | .blockDefault _ => true
  | .blockMarker _ => true
  | .blockReplace _ => true
  | .blockAppend _ => true
  | _ => false

/-- Model of `parseTemplateLine` (`tmpl.js` lines 21-63).  The line is trimmed and
matched against `^\/\/\s*(@\w+(?:\s+.+)?)\s*$`; on the trimmed line (which
has no trailing whitespace) this succeeds exactly when the line is
`//`, then whitespace, then `@`, then at least one word character, and the
character following the word-character run (if any) is whitespace.  The
matched text is split on whitespace; block-role commands require exactly
one argument and `throw` otherwise, modelled by `Except.error ()`. -/
def parseTemplateLine (line : Line) : Except Unit (Option Directive) :=
  match jsTrim line with
  | '/' :: '/' :: rest =>
    match rest.dropWhile isWs with
    | '@' :: cs =>
      let w := cs.takeWhile isWordChar
      let afterW := cs.dropWhile isWordChar
      if w ≠ [] ∧ (afterW = [] ∨ (afterW.head?.map isWs).getD false = true) then
        let parts := splitWs ('@' :: cs)
        let command := parts.headD []
        let args := parts.tail
        if command = l "@block_default" ∨ command = l "@block_replace" ∨
            command = l "@block_append" ∨ command = l "@block" then
          if args.length ≠ 1 then .error ()
          else
            let bid := args.headD []
            .ok (some (
              if command = l "@block_default" then .blockDefault bid
              else if command = l "@block_replace" then .blockReplace bid
              else if command = l "@block_append" then .blockAppend bid
              else .blockMarker bid))
        else if command = l "@endblock" then .ok (some .endBlock)
        else .ok (some (.other (command.drop 1) args))
      else .ok none
    | _ => .ok none
  | _ => .ok none

/-- Model of `getCommentIndent` (`tmpl.js` lines 68-74): the match of
`^(\s*)\/\/(\s*)`, i.e. leading whitespace ++ `//` ++ following
whitespace, or `none` if the line does not start (after whitespace) with
`//`. -/
def getCommentIndent (line : Line) : Option Line :=
  match line.dropWhile isWs with
  | '/' :: '/' :: r => some (line.takeWhile isWs ++ '/' :: '/' :: r.takeWhile isWs)
  | _ => none

example : parseTemplateLine (l "  // @block_default ARRAY_DEF  ") =
    .ok (some (.blockDefault (l "ARRAY_DEF"))) := by decide
example : parseTemplateLine (l "// @block_default a b") = .error () := by decide
example : parseTemplateLine (l "// @block_default") = .error () := by decide
example : parseTemplateLine (l "// @endblock") = .ok (some .endBlock) := by decide
example : parseTemplateLine (l "//   0,") = .ok none := by decide
example : parseTemplateLine (l "// @foo-bar") = .ok none := by decide
example : parseTemplateLine (l "// @foo bar baz") =
    .ok (some (.other (l "foo") [l "bar", l "baz"])) := by decide
example : parseTemplateLine (l "int x;") = .ok none := by decide
example : getCommentIndent (l "  //   0,") = some (l "  //   ") := by decide
example : getCommentIndent (l "int x; // y") = none := by decide

/-- One raw body line collected by the content-extractor loop: the groups
of the match `^(\s*)\/\/(\s*)(.*)` (`tmpl.js` line 104). -/
structure RawContent where
  lineIndent : Line
  commentSpaces : Line
  contentText : Line
deriving Repr, DecidableEq

/-- Split a comment line into the three groups of `^(\s*)\/\/(\s*)(.*)`.
Only used on lines on which `getCommentIndent` succeeds, where the match
always succeeds as well. -/
def splitCommentLine (line : Line) : RawContent :=
  let rest := (line.dropWhile isWs).drop 2
  { lineIndent := line.takeWhile isWs
    commentSpaces := rest.takeWhile isWs
    contentText := rest.dropWhile isWs }

/-- The collection loop of `parseTemplateContent` (`tmpl.js` lines 84-139):
consume a run of comment lines, stopping (without consuming) at any
directive, any comment with smaller comment-indent (unless the line is
solely `//`), any non-comment line or any blank line.  A malformed
directive encountered inside the run propagates as an error.  Returns the
collected lines and the index of the first line not consumed. -/
def parseContentAux (baseIndent : Line) : List Line → Nat → Except Unit (List RawContent × Nat)
  | [], i => .ok ([], i)
  | line :: restLines, i =>
    if (jsTrim line).take 2 = ['/', '/'] then
      match parseTemplateLine line with
      | .error e => .error e
      | .ok (some _) => .ok ([], i)
      | .ok none =>
        match getCommentIndent line with
        | none => .ok ([], i)
        | some commentIndent =>
          if commentIndent.length ≥ baseIndent.length ∨ jsTrim line = ['/', '/'] then
            match parseContentAux baseIndent restLines (i + 1) with
            | .error e => .error e
            | .ok (items, nl) => .ok (splitCommentLine line :: items, nl)
          else .ok ([], i)
    else .ok ([], i)

/-- The template indent (`tmpl.js` lines 108-111): the `commentSpaces` of
the first collected line whose content is not blank. -/
def templateIndentOf (items : List RawContent) : Option Line :=
  (items.find? (fun it => !(jsTrim it.contentText).isEmpty)).map (·.commentSpaces)

/-- The normalisation of one collected line (`tmpl.js` lines 142-165),
producing its `finalContent`. -/
def finalContentOf (tmplIndent : Option Line) (it : RawContent) : Line :=
  if jsTrim it.contentText = [] then []
  else
    match tmplIndent with
    | some t =>
      if t.isPrefixOf it.commentSpaces then it.commentSpaces.drop t.length ++ it.contentText
      else if it.commentSpaces.length < t.length ∧ jsTrim it.contentText ≠ [] then it.contentText
      else if it.commentSpaces = [] ∧ jsTrim it.contentText ≠ [] then it.contentText
      else it.commentSpaces ++ it.contentText
    | none =>
      if it.commentSpaces = [] ∧ jsTrim it.contentText ≠ [] then it.contentText
      else it.commentSpaces ++ it.contentText

/-- A processed template-body line, as stored in block contents. -/
structure ContentItem where
  lineIndent : Line
  commentSpaces : Line
  contentText : Line
  isEmpty : Bool
  finalContent : Line
deriving Repr, DecidableEq

def ContentItem.ofRaw (tmplIndent : Option Line) (it : RawContent) : ContentItem :=
  { lineIndent := it.lineIndent
    commentSpaces := it.commentSpaces
    contentText := it.contentText
    isEmpty := (jsTrim it.contentText).isEmpty
    finalContent := finalContentOf tmplIndent it }

/-- Result of `parseTemplateContent` (`tmpl.js` lines 79-168). -/
structure ParsedContent where
  content : List ContentItem
  nextLine : Nat
  templateIndent : Option Line
deriving Repr, DecidableEq

def parseTemplateContent (lines : List Line) (startIdx : Nat) (baseIndent : Line) :
    Except Unit ParsedContent :=
  match parseContentAux baseIndent (lines.drop startIdx) startIdx with
  | .error e => .error e
  | .ok (items, nl) =>
    let t := templateIndentOf items
    .ok ⟨items.map (ContentItem.ofRaw t), nl, t⟩

example :
    parseTemplateContent [l "      // @block_default A", l "      //   0,", l "      0,",
        l "      // @endblock"] 1 (l "      // ") =
      .ok ⟨[⟨l "      ", l "   ", l "0,", false, l "0,"⟩], 2, some (l "   ")⟩ := by decide

/-- The two block roles that are recorded as rewrite targets in a file
(`fileData.blocks` only ever receives `block_default` and `block`
occurrences, `tmpl.js` line 226). -/
inductive BlockKind where
  | blockDefault
  | blockMarker
deriving Repr, DecidableEq

/-- One recorded `block_default`/`block` occurrence (`blockData`,
`tmpl.js` lines 217-224). -/
structure Occurrence where
  kind : BlockKind
  blockId : Line
  startLine : Nat
  endLine : Nat
  indent : Line
  content : List ContentItem
deriving Repr, DecidableEq

/-- One registered contribution (`{ content, filePath, indent }` records of
`tmpl.js`; the file path is never read back and is omitted). -/
structure Contribution where
  content : List ContentItem
  indent : Line
deriving Repr, DecidableEq

/-- A registry entry (`tmpl.js` lines 230-234). `dflt` is the `default`
field. -/
structure BlockInfo where
  dflt : Option Contribution
  replaces : List Contribution
  appends : List Contribution
deriving Repr, DecidableEq

def BlockInfo.empty : BlockInfo := ⟨none, [], []⟩

/-- The global block registry `this.blocks`, an insertion-ordered map from
block identifier to `BlockInfo`. -/
abbrev Registry := List (Line × BlockInfo)

def findInfo (reg : Registry) (id : Line) : Option BlockInfo :=
  (reg.find? (fun p => p.1 == id)).map (·.2)

def setInfo (reg : Registry) (id : Line) (info : BlockInfo) : Registry :=
  match reg with
  | [] => [(id, info)]
  | (k, v) :: rest => if k == id then (k, info) :: rest else (k, v) :: setInfo rest id info

/-- Registering a `block_default` occurrence (`tmpl.js` lines 229-240):
create the entry if absent, then set its default. -/
def registerDefault (reg : Registry) (id : Line) (c : Contribution) : Registry :=
  let info := (findInfo reg id).getD BlockInfo.empty
  setInfo reg id { info with dflt := some c }

/-- Registering a `block` occurrence: create the entry if absent, leave it
unchanged otherwise. -/
def registerMarker (reg : Registry) (id : Line) : Registry :=
  let info := (findInfo reg id).getD BlockInfo.empty
  setInfo reg id info

/-- Registering a `block_replace` occurrence (`tmpl.js` lines 257-259). -/
def registerReplace (reg : Registry) (id : Line) (c : Contribution) : Registry :=
  let info := (findInfo reg id).getD BlockInfo.empty
  setInfo reg id { info with replaces := info.replaces ++ [c] }

/-- Registering a `block_append` occurrence (`tmpl.js` lines 260-261). -/
def registerAppend (reg : Registry) (id : Line) (c : Contribution) : Registry :=
  let info := (findInfo reg id).getD BlockInfo.empty
  setInfo reg id { info with appends := info.appends ++ [c] }

/-- The `@endblock` search of the scanner (`tmpl.js` lines 199-206),
walking the given suffix of the file while carrying the absolute index of
its first line: the index of the first `@endblock` line, or the file
length if none exists.  A malformed directive along the way propagates. -/
def findEndBlockAux : List Line → Nat → Except Unit Nat
  | [], j => .ok j
  | line :: rest, j =>
    match parseTemplateLine line with
    | .error e => .error e
    | .ok (some .endBlock) => .ok j
    | .ok _ => findEndBlockAux rest (j + 1)

def findEndBlock (lines : List Line) (j : Nat) : Except Unit Nat :=
  findEndBlockAux (lines.drop j) j

/-- The scanner loop of `parseFile` (`tmpl.js` lines 188-269), indexed by
fuel so that each step is structural; `none` means the fuel ran out (the
termination theorem shows `lines.length + 1` fuel always suffices).
Returns the file occurrence list and the updated registry. -/
def parseFileLoop : Nat → List Line → Nat → Registry →
    Option (Except Unit (List Occurrence × Registry))
  | 0, _, _, _ => none
  | fuel + 1, lines, i, reg =>
    if i < lines.length then
      let line := lines.getD i []
      match parseTemplateLine line with
      | .error e => some (.error e)
      | .ok dir =>
        match dir with
        | some (.blockDefault bid) =>
          let baseIndent := (getCommentIndent line).getD []
          match findEndBlock lines (i + 1) with
          | .error e => some (.error e)
          | .ok endLine =>
            match parseTemplateContent lines (i + 1) baseIndent with
            | .error e => some (.error e)
            | .ok pc =>
              let occ : Occurrence := ⟨.blockDefault, bid, i, endLine, baseIndent, pc.content⟩
              let reg1 := registerDefault reg bid ⟨pc.content, baseIndent⟩
              match parseFileLoop fuel lines (endLine + 1) reg1 with
              | none => none
              | some (.error e) => some (.error e)
              | some (.ok (occs, regF)) => some (.ok (occ :: occs, regF))
        | some (.blockMarker bid) =>
          let baseIndent := (getCommentIndent line).getD []
          match findEndBlock lines (i + 1) with
          | .error e => some (.error e)
          | .ok endLine =>
            let occ : Occurrence := ⟨.blockMarker, bid, i, endLine, baseIndent, []⟩
            let reg1 := registerMarker reg bid
            match parseFileLoop fuel lines (endLine + 1) reg1 with
            | none => none
            | some (.error e) => some (.error e)
            | some (.ok (occs, regF)) => some (.ok (occ :: occs, regF))
        | some (.blockReplace bid) =>
          let baseIndent := (getCommentIndent line).getD []
          match parseTemplateContent lines (i + 1) baseIndent with
          | .error e => some (.error e)
          | .ok pc =>
            parseFileLoop fuel lines pc.nextLine (registerReplace reg bid ⟨pc.content, baseIndent⟩)
        | some (.blockAppend bid) =>
          let baseIndent := (getCommentIndent line).getD []
          match parseTemplateContent lines (i + 1) baseIndent with
          | .error e => some (.error e)
          | .ok pc =>
            parseFileLoop fuel lines pc.nextLine (registerAppend reg bid ⟨pc.content, baseIndent⟩)
        | _ => parseFileLoop fuel lines (i + 1) reg
    else some (.ok ([], reg))

/-- Scanning one file (`parseFile`), continuing from a registry already
populated by earlier files. -/
def parseFileWith (lines : List Line) (reg : Registry) :
    Option (Except Unit (List Occurrence × Registry)) :=
  parseFileLoop (lines.length + 1) lines 0 reg

/-- Pass 1 over all files (`parseFiles`, `tmpl.js` lines 173-177). -/
def parsePass : List (List Line) → Registry →
    Option (Except Unit (List (List Occurrence) × Registry))
  | [], reg => some (.ok ([], reg))
  | f :: fs, reg =>
    match parseFileWith f reg with
    | none => none
    | some (.error e) => some (.error e)
    | some (.ok (occs, reg1)) =>
      match parsePass fs reg1 with
      | none => none
      | some (.error e) => some (.error e)
      | some (.ok (rest, regF)) => some (.ok (occs :: rest, regF))

/-- Emission of one resolved content item (`tmpl.js` lines 315-321; the
legacy string/fallback branches of lines 312-333 are dead for items
produced by this parser, which always carry `finalContent`). -/
def renderItem (baseIndent : Line) (it : ContentItem) : Line :=
  if it.isEmpty then [] else baseIndent ++ it.finalContent

/-- Model of `generateBlockContent` (`tmpl.js` lines 277-337): last replace wins,
else the default, else empty; then all appends; then each item is emitted
with the existing indentation prepended (blank items become blank
lines). -/
def generateBlockContent (reg : Registry) (blockId : Line) (existingIndent : Line) : List Line :=
  match findInfo reg blockId with
  | none => []
  | some info =>
    let base :=
      if info.replaces ≠ [] then ((info.replaces.getLast?).getD ⟨[], []⟩).content
      else
        match info.dflt with
        | some d => d.content
        | none => []
    let result := info.appends.foldl (fun acc a => acc ++ a.content) base
    result.map (renderItem existingIndent)

/-- The existing-indent scan over a block span (`tmpl.js` lines 357-368):
the leading whitespace of the first line that is neither blank nor a
comment, or empty if there is none. -/
def existingIndentScan : List Line → Line
  | [] => []
  | line :: rest =>
    if jsTrim line ≠ [] ∧ (jsTrim line).take 2 ≠ ['/', '/'] then line.takeWhile isWs
    else existingIndentScan rest

/-- The preserved-comment scan over a `block_default` span (`tmpl.js`
lines 378-403): the longest prefix of comment lines with comment indent at
least the block indent whose content is non-blank and does not start with
`@`. -/
def preservedScan (blockIndent : Line) : List Line → List Line
  | [] => []
  | line :: rest =>
    if (jsTrim line).take 2 = ['/', '/'] then
      match getCommentIndent line with
      | some ci =>
        if ci.length ≥ blockIndent.length then
          let text := (splitCommentLine line).contentText
          if jsTrim text ≠ [] ∧ (jsTrim text).take 1 ≠ ['@'] then
            line :: preservedScan blockIndent rest
          else []
        else []
      | none => []
    else []

/-- JavaScript `Array.prototype.splice(start, len, ...repl)` on a list of lines. -/
def spliceLines (ls : List Line) (start len : Nat) (repl : List Line) : List Line :=
  ls.take start ++ repl ++ ls.drop (start + len)

/-- The per-file loop of `generateOutput` (`tmpl.js` lines 344-410):
occurrences are processed in reverse order, so the head of the list is
processed after all occurrences following it.  Returns the new lines and
the `modified` flag. -/
def generateFileLoop (reg : Registry) : List Occurrence → List Line → List Line × Bool
  | [], newLines => (newLines, false)
  | occ :: rest, newLines =>
    let (nl1, m1) := generateFileLoop reg rest newLines
    if occ.kind = .blockDefault ∨ occ.kind = .blockMarker then
      let contentStart := occ.startLine + 1
      let span := (nl1.drop contentStart).take (occ.endLine - contentStart)
      let existingIndent := existingIndentScan span
      let generated := generateBlockContent reg occ.blockId existingIndent
      let preserved := if occ.kind = .blockDefault then preservedScan occ.indent span else []
      (spliceLines nl1 contentStart (occ.endLine - contentStart) (preserved ++ generated), true)
    else (nl1, m1)

/-- Pass 2 for one file: the rewritten lines and whether the file is
written back (`modified`). -/
def generateFile (reg : Registry) (lines : List Line) (occs : List Occurrence) :
    List Line × Bool :=
  generateFileLoop reg occs lines

/-- The whole engine on a file set: pass 1 over every file, then pass 2
per file (`process`, `tmpl.js` lines 425-471; a pass-1 error aborts before
anything is written). -/
def engine (files : List (List Line)) : Option (Except Unit (List (List Line × Bool))) :=
  match parsePass files [] with
  | none => none
  | some (.error e) => some (.error e)
  | some (.ok (occsPerFile, reg)) =>
    some (.ok ((files.zip occsPerFile).map (fun p => generateFile reg p.1 p.2)))

/-- JavaScript `content.split` on `\r?\n` (`tmpl.js` line 181). -/
def splitLinesAux : Line → Line → List Line
  | [], acc => [acc.reverse]
  | '\r' :: '\n' :: rest, acc => acc.reverse :: splitLinesAux rest []
  | '\n' :: rest, acc => acc.reverse :: splitLinesAux rest []
  | c :: rest, acc => splitLinesAux rest (c :: acc)

def splitLines (text : Line) : List Line := splitLinesAux text []

/-- JavaScript `newLines.join` with a newline separator (`tmpl.js` line 413). -/
def joinLines (ls : List Line) : Line := List.intercalate ['\n'] ls

/-- The engine at the level of whole file texts: a file is rewritten to
the joined new lines when `modified`, and keeps its original text
otherwise. -/
def engineTexts (texts : List Line) : Option (Except Unit (List Line)) :=
  match engine (texts.map splitLines) with
  | none => none
  | some (.error e) => some (.error e)
  | some (.ok outs) =>
    some (.ok ((texts.zip outs).map (fun p => if p.2.2 then joinLines p.2.1 else p.1)))

example :
    engineTexts [l "start\n  // @block_default ARRAY_DEF\n  //   0,\n  0,\n  // @endblock\nend\n\n// @block_replace ARRAY_DEF\n//   1,\n\n// @block_append ARRAY_DEF\n//   2,"] =
    some (.ok [l "start\n  // @block_default ARRAY_DEF\n  //   0,\n  1,\n  2,\n  // @endblock\nend\n\n// @block_replace ARRAY_DEF\n//   1,\n\n// @block_append ARRAY_DEF\n//   2,"]) := by
  decide

example :
    engineTexts [l "guess what?\n  // @block_default burrito\n  i like them\n  // @endblock\n\n// @block_replace burrito\n//   actually i prefer tacos"] =
    some (.ok [l "guess what?\n  // @block_default burrito\n  actually i prefer tacos\n  // @endblock\n\n// @block_replace burrito\n//   actually i prefer tacos"]) := by
  decide

example :
    engineTexts
      [l "int main:\n  // @block_default ITEMS\n  // default item\n  print default\n  // @endblock\n  return 0",
       l "// @block_replace ITEMS\n//   print replaced",
       l "// @block_append ITEMS\n//   print appended"] =
    some (.ok
      [l "int main:\n  // @block_default ITEMS\n  // default item\n  print replaced\n  print appended\n  // @endblock\n  return 0",
       l "// @block_replace ITEMS\n//   print replaced",
       l "// @block_append ITEMS\n//   print appended"]) := by
  decide

/-- Well-formed occurrence spans, with a lower bound for the next
occurrence: start lines are at least the bound and strictly increasing,
each span is non-degenerate (`startLine < endLine`), spans end within the
file, and each span ends strictly before the next one starts. -/
def spansOk (n : Nat) : Nat → List Occurrence → Bool
  | _, [] => true
  | lb, o :: rest =>
    decide (lb ≤ o.startLine) && decide (o.startLine < o.endLine) &&
      decide (o.endLine ≤ n) && spansOk n (o.endLine + 1) rest

/-- The replacement lines for one occurrence, computed from the original
file lines: preserved template comments (for `block_default`) followed by
the generated block content. -/
def blockReplacement (reg : Registry) (lines : List Line) (o : Occurrence) : List Line :=
  let contentStart := o.startLine + 1
  let span := (lines.drop contentStart).take (o.endLine - contentStart)
  let existingIndent := existingIndentScan span
  let preserved := if o.kind = .blockDefault then preservedScan o.indent span else []
  preserved ++ generateBlockContent reg o.blockId existingIndent

/-- The frame-preserving shape of a patched file: all original lines up to
and including each occurrence's opening directive line, then that
occurrence's replacement, then the original lines from its `@endblock`
line on (the next occurrence's region being rewritten in the same way). -/
def glue (reg : Registry) (lines : List Line) : Nat → List Occurrence → List Line
  | pos, [] => lines.drop pos
  | pos, o :: rest =>
    (lines.drop pos).take (o.startLine + 1 - pos) ++ blockReplacement reg lines o ++
      glue reg lines o.endLine rest

/-- Modelled from the spec words (claim C5): the "comment-indent-width" of
a comment line `//<spaces><text>`, the length of the `<spaces>` run
following `//`. -/
def specCommentIndentWidth (line : Line) : Nat :=
  (((line.dropWhile isWs).drop 2).takeWhile isWs).length

/-- A minimal content item (no comment-spaces structure), for concrete
registries in witnesses. -/
def mkItem (s : String) : ContentItem := ⟨[], [], s.toList, false, s.toList⟩

def mkContribution (s : String) : Contribution := ⟨[mkItem s], []⟩

/-- Input file of the idempotence counterexample: a `block_default` whose
template body line itself begins with `//`. -/
def cex2_t0 : Line := l "// @block_default X\n//   // hi\n// @endblock"

/-- Output of the first engine run on `cex2_t0`. -/
def cex2_t1 : Line := l "// @block_default X\n//   // hi\n// hi\n// @endblock"

/-- Output of the second engine run: the generated line `// hi` was
re-absorbed as template content and as a preserved comment, so the file
grows again. -/
def cex2_t2 : Line := l "// @block_default X\n//   // hi\n// hi\n// hi\nhi\n// @endblock"

/-- A file whose only occurrence splices an empty replacement over an
empty span: the spliced result is textually identical to the input. -/
def cex4_file : List Line := [l "// @block_default X", l "// @endblock"]

/-! ### Basic lemmas about the line classifier -/

/-- The line classifier can only fail on a line whose trimmed form starts
with `//`. -/
theorem ptl_error_comment {line : Line} {e : Unit} (h : parseTemplateLine line = .error e) :
    (jsTrim line).take 2 = ['/', '/'] := by
  rw [parseTemplateLine] at h
  split at h
  · next heq => rw [heq]; rfl
  · exact absurd h (by simp)

/-! ### Lemmas about the content-extractor loop -/

/-- The stop index of the content run never moves backwards, and never
moves past the end of the scanned lines. -/
theorem parseContentAux_le (base : Line) :
    ∀ (ls : List Line) (i : Nat) (items : List RawContent) (nl : Nat),
      parseContentAux base ls i = .ok (items, nl) → i ≤ nl ∧ nl ≤ i + ls.length := by
  intro ls
  induction ls with
  | nil =>
    intro i items nl h
    simp only [parseContentAux] at h
    cases h
    simp
  | cons line rest ih =>
    intro i items nl h
    simp only [parseContentAux] at h
    split at h
    · split at h
      · exact absurd h (by simp)
      · cases h; simp
      · split at h
        · cases h; simp
        · split at h
          · split at h
            · exact absurd h (by simp)
            · next heq =>
              cases h
              have := ih (i + 1) _ _ heq
              constructor <;> [omega; (simp only [List.length_cons]; omega)]
          · cases h; simp
    · cases h; simp

/-- Every line at or before the stop index of a successful content run is
parsed without a malformed-directive error. -/
theorem parseContentAux_ok_no_error (base : Line) :
    ∀ (ls : List Line) (i : Nat) (items : List RawContent) (nl : Nat),
      parseContentAux base ls i = .ok (items, nl) →
      ∀ m, m < ls.length → i + m ≤ nl → parseTemplateLine (ls.getD m []) ≠ .error () := by
  intro ls
  induction ls with
  | nil => intro i items nl _ m hm; simp at hm
  | cons line rest ih =>
    intro i items nl h m hm hle
    simp only [parseContentAux] at h
    split at h
    · split at h
      · exact absurd h (by simp)
      · next heq =>
        cases h
        have hm0 : m = 0 := by omega
        subst hm0
        simp [heq]
      · next heq =>
        split at h
        · cases h
          have hm0 : m = 0 := by omega
          subst hm0
          simp [heq]
        · split at h
          · split at h
            · exact absurd h (by simp)
            · next hrec =>
              cases h
              cases m with
              | zero => simp [heq]
              | succ m =>
                have := ih (i + 1) _ _ hrec m (by simpa using hm) (by omega)
                simpa using this
          · cases h
            have hm0 : m = 0 := by omega
            subst hm0
            simp [heq]
    · next hnc =>
      cases h
      have hm0 : m = 0 := by omega
      subst hm0
      intro herr
      exact hnc (ptl_error_comment herr)

/-- A failing content run contains a line with a malformed directive. -/
theorem parseContentAux_error_mem (base : Line) :
    ∀ (ls : List Line) (i : Nat), parseContentAux base ls i = .error () →
      ∃ line ∈ ls, parseTemplateLine line = .error () := by
  intro ls
  induction ls with
  | nil => intro i h; simp [parseContentAux] at h
  | cons line rest ih =>
    intro i h
    simp only [parseContentAux] at h
    split at h
    · split at h
      · next heq => exact ⟨line, by simp, heq⟩
      · exact absurd h (by simp)
      · split at h
        · exact absurd h (by simp)
        · split at h
          · split at h
            · next hrec =>
              obtain ⟨li, hmem, herr⟩ := ih (i + 1) hrec
              exact ⟨li, by simp [hmem], herr⟩
            · exact absurd h (by simp)
          · exact absurd h (by simp)
    · exact absurd h (by simp)

/-! ### Lemmas about the endblock search -/

/-- The endblock search result never moves backwards, and never moves past
the end of the scanned lines. -/
theorem findEndBlockAux_le :
    ∀ (ls : List Line) (j e : Nat), findEndBlockAux ls j = .ok e →
      j ≤ e ∧ e ≤ j + ls.length := by
  intro ls
  induction ls with
  | nil => intro j e h; cases h; simp
  | cons line rest ih =>
    intro j e h
    simp only [findEndBlockAux] at h
    split at h
    · exact absurd h (by simp)
    · cases h; simp
    · have := ih (j + 1) e h
      constructor <;> [omega; (simp only [List.length_cons]; omega)]

/-- Every line at or before a successful endblock search result is parsed
without a malformed-directive error. -/
theorem findEndBlockAux_ok_no_error :
    ∀ (ls : List Line) (j e : Nat), findEndBlockAux ls j = .ok e →
      ∀ m, m < ls.length → j + m ≤ e → parseTemplateLine (ls.getD m []) ≠ .error () := by
  intro ls
  induction ls with
  | nil => intro j e _ m hm; simp at hm
  | cons line rest ih =>
    intro j e h m hm hle
    simp only [findEndBlockAux] at h
    split at h
    · exact absurd h (by simp)
    · next heq =>
      cases h
      have hm0 : m = 0 := by omega
      subst hm0
      simp [heq]
    · next heq =>
      cases m with
      | zero => simp [heq]
      | succ m =>
        have := ih (j + 1) e h m (by simpa using hm) (by omega)
        simpa using this

/-- A failing endblock search contains a line with a malformed
directive. -/
theorem findEndBlockAux_error_mem :
    ∀ (ls : List Line) (j : Nat), findEndBlockAux ls j = .error () →
      ∃ line ∈ ls, parseTemplateLine line = .error () := by
  intro ls
  induction ls with
  | nil => intro j h; simp [findEndBlockAux] at h
  | cons line rest ih =>
    intro j h
    simp only [findEndBlockAux] at h
    split at h
    · next heq => exact ⟨line, by simp, heq⟩
    · exact absurd h (by simp)
    · obtain ⟨li, hmem, herr⟩ := ih (j + 1) h
      exact ⟨li, by simp [hmem], herr⟩

/-- If no scanned line is an `@endblock` (and none is malformed), the
endblock search runs to the end of the file. -/
theorem findEndBlockAux_all :
    ∀ (ls : List Line) (j : Nat),
      (∀ line ∈ ls, parseTemplateLine line ≠ .error () ∧
        parseTemplateLine line ≠ .ok (some .endBlock)) →
      findEndBlockAux ls j = .ok (j + ls.length) := by
  intro ls
  induction ls with
  | nil => intro j _; simp [findEndBlockAux]
  | cons line rest ih =>
    intro j hall
    have hline := hall line (by simp)
    simp only [findEndBlockAux]
    split
    · next heq => exact absurd heq hline.1
    · next heq => exact absurd heq hline.2
    · rw [ih (j + 1) (fun li hm => hall li (by simp [hm]))]
      simp only [List.length_cons]
      congr 1
      omega

/-- Wrapper bounds for `parseTemplateContent`. -/
theorem parseTemplateContent_le {lines : List Line} {s : Nat} {b : Line} {pc : ParsedContent}
    (h : parseTemplateContent lines s b = .ok pc) :
    s ≤ pc.nextLine ∧ pc.nextLine ≤ s + (lines.drop s).length := by
  rw [parseTemplateContent] at h
  split at h
  · exact absurd h (by simp)
  · next items nl heq =>
    cases h
    exact parseContentAux_le b _ s items nl heq

/-- Wrapper bounds for `findEndBlock`. -/
theorem findEndBlock_le {lines : List Line} {j e : Nat} (h : findEndBlock lines j = .ok e) :
    j ≤ e ∧ e ≤ j + (lines.drop j).length :=
  findEndBlockAux_le _ j e h

/-! ### Termination of the scanner loop -/

/-- The occurrence-consing continuation of the scanner loop preserves
definedness. -/
theorem consChain_isSome {x : Option (Except Unit (List Occurrence × Registry))}
    (occ : Occurrence) (hx : x.isSome) :
    (match x with
      | none => none
      | some (Except.error e) => some (Except.error e)
      | some (Except.ok (occs, regF)) => some (Except.ok (occ :: occs, regF))).isSome := by
  cases x with
  | none => simp at hx
  | some r =>
    cases r with
    | error e => simp
    | ok p => simp

/-- The scan index strictly increases at every iteration, so fuel
exceeding the number of remaining lines is enough for the scanner loop to
complete. -/
theorem parseFileLoop_isSome :
    ∀ (fuel : Nat) (lines : List Line) (i : Nat) (reg : Registry),
      lines.length - i < fuel → (parseFileLoop fuel lines i reg).isSome := by
  intro fuel
  induction fuel with
  | zero => intro lines i reg h; omega
  | succ fuel ih =>
    intro lines i reg h
    simp only [parseFileLoop]
    split
    · next hi =>
      split
      · simp
      · split
        · -- block_default
          split
          · simp
          · next e heqe =>
            have he := findEndBlock_le heqe
            simp only [List.length_drop] at he
            split
            · simp
            · exact consChain_isSome _ (ih lines (e + 1) _ (by omega))
        · -- block
          split
          · simp
          · next e heqe =>
            have he := findEndBlock_le heqe
            simp only [List.length_drop] at he
            exact consChain_isSome _ (ih lines (e + 1) _ (by omega))
        · -- block_replace
          split
          · simp
          · next pc heqc =>
            have hc := parseTemplateContent_le heqc
            simp only [List.length_drop] at hc
            exact ih lines pc.nextLine _ (by omega)
        · -- block_append
          split
          · simp
          · next pc heqc =>
            have hc := parseTemplateContent_le heqc
            simp only [List.length_drop] at hc
            exact ih lines pc.nextLine _ (by omega)
        · -- endblock / other / non-directive
          exact ih lines (i + 1) _ (by omega)
    · simp

/-! ### The scanner occurrence invariant -/

/-- The lower bound of a span chain can be weakened. -/
theorem spansOk_weaken :
    ∀ (n lb lb' : Nat) (occs : List Occurrence), lb ≤ lb' → spansOk n lb' occs = true →
      spansOk n lb occs = true := by
  intro n lb lb' occs hle h
  cases occs with
  | nil => rfl
  | cons o rest =>
    simp only [spansOk, Bool.and_eq_true, decide_eq_true_eq] at h ⊢
    exact ⟨⟨⟨by omega, h.1.1.2⟩, h.1.2⟩, h.2⟩

/-- The invariant of the scanner loop: recorded occurrences have strictly
increasing, pairwise-disjoint, in-file spans starting at or after the scan
index, and each occurrence's end line is the result of the endblock search
from the line after its start line. -/
theorem parseFileLoop_inv :
    ∀ (fuel : Nat) (lines : List Line) (i : Nat) (reg : Registry) (occs : List Occurrence)
      (regF : Registry),
      parseFileLoop fuel lines i reg = some (.ok (occs, regF)) →
      spansOk lines.length i occs = true ∧
        ∀ occ ∈ occs, findEndBlock lines (occ.startLine + 1) = .ok occ.endLine := by
  intro fuel
  induction fuel with
  | zero => intro lines i reg occs regF h; exact absurd h (by simp [parseFileLoop])
  | succ fuel ih =>
    intro lines i reg occs regF h
    simp only [parseFileLoop] at h
    split at h
    · next hi =>
      split at h
      · exact absurd h (by simp)
      · split at h
        · -- block_default
          split at h
          · exact absurd h (by simp)
          · next e heqe =>
            split at h
            · exact absurd h (by simp)
            · split at h
              · exact absurd h (by simp)
              · exact absurd h (by simp)
              · next hrec =>
                cases h
                have he := findEndBlock_le heqe
                simp only [List.length_drop] at he
                have ⟨hso, hfe⟩ := ih lines (e + 1) _ _ _ hrec
                refine ⟨?_, ?_⟩
                · simp only [spansOk, Bool.and_eq_true, decide_eq_true_eq]
                  exact ⟨⟨⟨le_refl i, by omega⟩, by omega⟩, hso⟩
                · intro occ hocc
                  rcases List.mem_cons.mp hocc with hh | hh
                  · subst hh; exact heqe
                  · exact hfe occ hh
        · -- block
          split at h
          · exact absurd h (by simp)
          · next e heqe =>
            split at h
            · exact absurd h (by simp)
            · exact absurd h (by simp)
            · next hrec =>
              cases h
              have he := findEndBlock_le heqe
              simp only [List.length_drop] at he
              have ⟨hso, hfe⟩ := ih lines (e + 1) _ _ _ hrec
              refine ⟨?_, ?_⟩
              · simp only [spansOk, Bool.and_eq_true, decide_eq_true_eq]
                exact ⟨⟨⟨le_refl i, by omega⟩, by omega⟩, hso⟩
              · intro occ hocc
                rcases List.mem_cons.mp hocc with hh | hh
                · subst hh; exact heqe
                · exact hfe occ hh
        · -- block_replace
          split at h
          · exact absurd h (by simp)
          · next pc heqc =>
            have hc := parseTemplateContent_le heqc
            have ⟨hso, hfe⟩ := ih lines pc.nextLine _ _ _ h
            exact ⟨spansOk_weaken _ i pc.nextLine occs (by omega) hso, hfe⟩
        · -- block_append
          split at h
          · exact absurd h (by simp)
          · next pc heqc =>
            have hc := parseTemplateContent_le heqc
            have ⟨hso, hfe⟩ := ih lines pc.nextLine _ _ _ h
            exact ⟨spansOk_weaken _ i pc.nextLine occs (by omega) hso, hfe⟩
        · -- endblock / other / non-directive
          have ⟨hso, hfe⟩ := ih lines (i + 1) _ _ _ h
          exact ⟨spansOk_weaken _ i (i + 1) occs (by omega) hso, hfe⟩
    · cases h
      exact ⟨rfl, by simp⟩

/-! ### Error behaviour of the scanner -/

theorem getD_mem {ls : List Line} {i : Nat} (hi : i < ls.length) : ls.getD i [] ∈ ls := by
  rw [List.getD_eq_getElem?_getD, List.getElem?_eq_getElem hi]
  exact List.getElem_mem hi

theorem getD_drop (ls : List Line) (a m : Nat) : (ls.drop a).getD m [] = ls.getD (a + m) [] := by
  simp [List.getD_eq_getElem?_getD, List.getElem?_drop]

theorem parseTemplateContent_error_mem {lines : List Line} {s : Nat} {b : Line}
    (h : parseTemplateContent lines s b = .error ()) :
    ∃ line ∈ lines, parseTemplateLine line = .error () := by
  rw [parseTemplateContent] at h
  split at h
  · next heq =>
    obtain ⟨li, hmem, herr⟩ := parseContentAux_error_mem b _ s heq
    exact ⟨li, List.drop_subset s lines hmem, herr⟩
  · exact absurd h (by simp)

theorem findEndBlock_error_mem {lines : List Line} {j : Nat}
    (h : findEndBlock lines j = .error ()) :
    ∃ line ∈ lines, parseTemplateLine line = .error () := by
  obtain ⟨li, hmem, herr⟩ := findEndBlockAux_error_mem _ j h
  exact ⟨li, List.drop_subset j lines hmem, herr⟩

/-- If no line of the file has a malformed block-role directive, the
scanner loop never reports an error. -/
theorem parseFileLoop_ok_of_no_error :
    ∀ (fuel : Nat) (lines : List Line) (i : Nat) (reg : Registry)
      (r : Except Unit (List Occurrence × Registry)),
      (∀ line ∈ lines, parseTemplateLine line ≠ .error ()) →
      parseFileLoop fuel lines i reg = some r → ∃ x, r = .ok x := by
  intro fuel
  induction fuel with
  | zero => intro lines i reg r _ h; exact absurd h (by simp [parseFileLoop])
  | succ fuel ih =>
    intro lines i reg r hno h
    simp only [parseFileLoop] at h
    split at h
    · next hi =>
      split at h
      · next heq =>
        cases h
        exact absurd heq (hno _ (getD_mem hi))
      · split at h
        · -- block_default
          split at h
          · next heq =>
            cases h
            obtain ⟨li, hmem, herr⟩ := findEndBlock_error_mem heq
            exact absurd herr (hno li hmem)
          · split at h
            · next heq =>
              cases h
              obtain ⟨li, hmem, herr⟩ := parseTemplateContent_error_mem heq
              exact absurd herr (hno li hmem)
            · split at h
              · exact absurd h (by simp)
              · next hrec =>
                cases h
                obtain ⟨x, hx⟩ := ih lines _ _ _ hno hrec
                exact absurd hx (by simp)
              · cases h; exact ⟨_, rfl⟩
        · -- block
          split at h
          · next heq =>
            cases h
            obtain ⟨li, hmem, herr⟩ := findEndBlock_error_mem heq
            exact absurd herr (hno li hmem)
          · split at h
            · exact absurd h (by simp)
            · next hrec =>
              cases h
              obtain ⟨x, hx⟩ := ih lines _ _ _ hno hrec
              exact absurd hx (by simp)
            · cases h; exact ⟨_, rfl⟩
        · -- block_replace
          split at h
          · next heq =>
            cases h
            obtain ⟨li, hmem, herr⟩ := parseTemplateContent_error_mem heq
            exact absurd herr (hno li hmem)
          · exact ih lines _ _ _ hno h
        · -- block_append
          split at h
          · next heq =>
            cases h
            obtain ⟨li, hmem, herr⟩ := parseTemplateContent_error_mem heq
            exact absurd herr (hno li hmem)
          · exact ih lines _ _ _ hno h
        · exact ih lines _ _ _ hno h
    · cases h; exact ⟨_, rfl⟩

/-- If some line at or after the scan index has a malformed block-role
directive, the scanner loop reports an error. -/
theorem parseFileLoop_error_of_error :
    ∀ (fuel : Nat) (lines : List Line) (i : Nat) (reg : Registry)
      (r : Except Unit (List Occurrence × Registry)),
      parseFileLoop fuel lines i reg = some r →
      ∀ j, i ≤ j → j < lines.length → parseTemplateLine (lines.getD j []) = .error () →
      r = .error () := by
  intro fuel
  induction fuel with
  | zero => intro lines i reg r h; exact absurd h (by simp [parseFileLoop])
  | succ fuel ih =>
    intro lines i reg r h j hij hjlen herr
    simp only [parseFileLoop] at h
    split at h
    · next hi =>
      split at h
      · cases h; rfl
      · next heqd =>
        have hji : i ≠ j := by
          intro he
          subst he
          rw [herr] at heqd
          cases heqd
        split at h
        · -- block_default
          split at h
          · cases h; rfl
          · next e heqe =>
            have hje : e + 1 ≤ j := by
              by_contra hc
              push_neg at hc
              have hm : j - (i + 1) < (lines.drop (i + 1)).length := by
                simp only [List.length_drop]; omega
              have := findEndBlockAux_ok_no_error _ (i + 1) e heqe (j - (i + 1)) hm (by omega)
              rw [getD_drop] at this
              have hj2 : i + 1 + (j - (i + 1)) = j := by omega
              rw [hj2] at this
              exact this herr
            split at h
            · cases h; rfl
            · split at h
              · exact absurd h (by simp)
              · next e2 hrec =>
                cases h; rfl
              · next occs2 regF2 hrec =>
                cases h
                exact absurd (ih lines _ _ _ hrec j (by omega) hjlen herr) (by simp)
        · -- block
          split at h
          · cases h; rfl
          · next e heqe =>
            have hje : e + 1 ≤ j := by
              by_contra hc
              push_neg at hc
              have hm : j - (i + 1) < (lines.drop (i + 1)).length := by
                simp only [List.length_drop]; omega
              have hne := findEndBlockAux_ok_no_error _ (i + 1) e heqe (j - (i + 1)) hm (by omega)
              rw [getD_drop] at hne
              have hj2 : i + 1 + (j - (i + 1)) = j := by omega
              rw [hj2] at hne
              exact hne herr
            split at h
            · exact absurd h (by simp)
            · next e2 hrec =>
              cases h; rfl
            · next occs2 regF2 hrec =>
              cases h
              exact absurd (ih lines _ _ _ hrec j (by omega) hjlen herr) (by simp)
        · -- block_replace
          split at h
          · cases h; rfl
          · next pc heqc =>
            rw [parseTemplateContent] at heqc
            split at heqc
            · exact absurd heqc (by simp)
            · next items nl haux =>
              cases heqc
              have hnl : nl ≤ j := by
                by_contra hc
                push_neg at hc
                have hm : j - (i + 1) < (lines.drop (i + 1)).length := by
                  simp only [List.length_drop]; omega
                have hne := parseContentAux_ok_no_error _ _ (i + 1) items nl haux (j - (i + 1)) hm
                  (by omega)
                rw [getD_drop] at hne
                have hj2 : i + 1 + (j - (i + 1)) = j := by omega
                rw [hj2] at hne
                exact hne herr
              exact ih lines _ _ _ h j hnl hjlen herr
        · -- block_append
          split at h
          · cases h; rfl
          · next pc heqc =>
            rw [parseTemplateContent] at heqc
            split at heqc
            · exact absurd heqc (by simp)
            · next items nl haux =>
              cases heqc
              have hnl : nl ≤ j := by
                by_contra hc
                push_neg at hc
                have hm : j - (i + 1) < (lines.drop (i + 1)).length := by
                  simp only [List.length_drop]; omega
                have hne := parseContentAux_ok_no_error _ _ (i + 1) items nl haux (j - (i + 1)) hm
                  (by omega)
                rw [getD_drop] at hne
                have hj2 : i + 1 + (j - (i + 1)) = j := by omega
                rw [hj2] at hne
                exact hne herr
              exact ih lines _ _ _ h j hnl hjlen herr
        · exact ih lines _ _ _ h j (by omega) hjlen herr
    · omega

/-! ### Pass 1 over a file set -/

/-- Scanning a single file always terminates. -/
theorem parseFileWith_isSome (lines : List Line) (reg : Registry) :
    (parseFileWith lines reg).isSome :=
  parseFileLoop_isSome (lines.length + 1) lines 0 reg (by omega)

/-- Pass 1 always terminates. -/
theorem parsePass_isSome : ∀ (files : List (List Line)) (reg : Registry),
    (parsePass files reg).isSome := by
  intro files
  induction files with
  | nil => intro reg; simp [parsePass]
  | cons f fs ih =>
    intro reg
    simp only [parsePass]
    have hf := parseFileWith_isSome f reg
    cases hfw : parseFileWith f reg with
    | none => rw [hfw] at hf; simp at hf
    | some r =>
      cases r with
      | error e => simp
      | ok p =>
        obtain ⟨occs, reg1⟩ := p
        have hp := ih reg1
        cases hps : parsePass fs reg1 with
        | none => rw [hps] at hp; simp at hp
        | some r2 =>
          cases r2 with
          | error e => simp [hps]
          | ok p2 => simp [hps]

/-- If no line of any file is malformed, pass 1 succeeds. -/
theorem parsePass_ok_of_no_error :
    ∀ (files : List (List Line)) (reg : Registry),
      (∀ f ∈ files, ∀ line ∈ f, parseTemplateLine line ≠ .error ()) →
      ∃ outs regF, parsePass files reg = some (.ok (outs, regF)) := by
  intro files
  induction files with
  | nil => intro reg _; exact ⟨[], reg, rfl⟩
  | cons f fs ih =>
    intro reg hno
    have hf := parseFileWith_isSome f reg
    cases hfw : parseFileWith f reg with
    | none => rw [hfw] at hf; simp at hf
    | some r =>
      obtain ⟨⟨occs, reg1⟩, hx⟩ :=
        parseFileLoop_ok_of_no_error (f.length + 1) f 0 reg r (hno f (by simp)) hfw
      subst hx
      obtain ⟨outs, regF, hps⟩ := ih reg1 (fun g hg line hl => hno g (by simp [hg]) line hl)
      refine ⟨occs :: outs, regF, ?_⟩
      simp only [parsePass, hfw, hps]

/-- If any line of any file is malformed, pass 1 aborts with the error. -/
theorem parsePass_error_of_error :
    ∀ (files : List (List Line)) (reg : Registry),
      (∃ f ∈ files, ∃ line ∈ f, parseTemplateLine line = .error ()) →
      parsePass files reg = some (.error ()) := by
  intro files
  induction files with
  | nil => intro reg h; simp at h
  | cons f fs ih =>
    intro reg hex
    have hf := parseFileWith_isSome f reg
    cases hfw : parseFileWith f reg with
    | none => rw [hfw] at hf; simp at hf
    | some r =>
      cases r with
      | error e =>
        cases e
        simp only [parsePass, hfw]
      | ok p =>
        obtain ⟨occs, reg1⟩ := p
        have hfok : ∀ line ∈ f, parseTemplateLine line ≠ .error () := by
          intro line hl herr
          obtain ⟨j, hj, hjl⟩ := List.mem_iff_getElem.mp hl
          have hgd : f.getD j [] = line := by
            rw [List.getD_eq_getElem?_getD, List.getElem?_eq_getElem hj, hjl]; rfl
          have := parseFileLoop_error_of_error (f.length + 1) f 0 reg _ hfw j
            (Nat.zero_le j) hj (by rw [hgd]; exact herr)
          exact absurd this (by simp)
        have hfs : ∃ g ∈ fs, ∃ line ∈ g, parseTemplateLine line = .error () := by
          obtain ⟨g, hg, line, hl, herr⟩ := hex
          rcases List.mem_cons.mp hg with hfg | hfg
          · subst hfg; exact absurd herr (hfok line hl)
          · exact ⟨g, hfg, line, hl, herr⟩
        simp only [parsePass, hfw, ih reg1 hfs]

/-! ### Frame preservation of the patcher -/

theorem spansOk_cons {n lb : Nat} {o : Occurrence} {rest : List Occurrence} :
    spansOk n lb (o :: rest) = true ↔
      lb ≤ o.startLine ∧ o.startLine < o.endLine ∧ o.endLine ≤ n ∧
        spansOk n (o.endLine + 1) rest = true := by
  simp [spansOk, Bool.and_eq_true, decide_eq_true_eq, and_assoc]

/-- A patched suffix agrees with the original lines strictly before the
first remaining span. -/
theorem glue_take (reg : Registry) (lines : List Line) :
    ∀ (rest : List Occurrence) (lb k : Nat), spansOk lines.length lb rest = true →
      k ≤ lb → k ≤ lines.length → (glue reg lines 0 rest).take k = lines.take k := by
  intro rest
  cases rest with
  | nil => intro lb k _ _ _; simp [glue]
  | cons o rest2 =>
    intro lb k hso hklb hkn
    obtain ⟨h1, h2, h3, _⟩ := spansOk_cons.mp hso
    simp only [glue, List.drop_zero, Nat.sub_zero]
    rw [List.append_assoc, List.take_append_of_le_length
      (by simp only [List.length_take]; omega)]
    rw [List.take_take]
    congr 1
    omega

/-- Dropping up to the first remaining span repositions the patched
suffix. -/
theorem glue_drop (reg : Registry) (lines : List Line) :
    ∀ (rest : List Occurrence) (lb p : Nat), spansOk lines.length lb rest = true →
      p ≤ lb → p ≤ lines.length → (glue reg lines 0 rest).drop p = glue reg lines p rest := by
  intro rest
  cases rest with
  | nil => intro lb p _ _ _; simp [glue]
  | cons o rest2 =>
    intro lb p hso hplb hpn
    obtain ⟨h1, h2, h3, _⟩ := spansOk_cons.mp hso
    simp only [glue, List.drop_zero, Nat.sub_zero]
    rw [List.append_assoc, List.drop_append_eq_append_drop,
      Nat.sub_eq_zero_of_le (by simp only [List.length_take]; omega), List.drop_zero,
      List.drop_take]
    rw [← List.append_assoc]

/-- The patcher loop preserves everything outside the (disjoint) spans:
its result is exactly the original lines with each span's interior
replaced by that occurrence's replacement lines, both computed from the
original file. -/
theorem generateFileLoop_frame (reg : Registry) (lines : List Line) :
    ∀ occs, spansOk lines.length 0 occs = true →
      (generateFileLoop reg occs lines).1 = glue reg lines 0 occs := by
  intro occs
  induction occs with
  | nil => intro _; simp [generateFileLoop, glue]
  | cons o rest ih =>
    intro hso
    obtain ⟨h1, h2, h3, hchain⟩ := spansOk_cons.mp hso
    have hrest0 : spansOk lines.length 0 rest = true :=
      spansOk_weaken _ 0 (o.endLine + 1) rest (by omega) hchain
    have hnl1 : (generateFileLoop reg rest lines).1 = glue reg lines 0 rest := ih hrest0
    simp only [generateFileLoop]
    cases hloop : generateFileLoop reg rest lines with
    | mk nl1 m1 =>
      rw [hloop] at hnl1
      simp only at hnl1
      subst hnl1
      have hkind : o.kind = BlockKind.blockDefault ∨ o.kind = BlockKind.blockMarker := by
        cases o.kind <;> simp
      rw [if_pos hkind]
      have hspan :
          ((glue reg lines 0 rest).drop (o.startLine + 1)).take (o.endLine - (o.startLine + 1)) =
            (lines.drop (o.startLine + 1)).take (o.endLine - (o.startLine + 1)) := by
        have htk : (glue reg lines 0 rest).take o.endLine = lines.take o.endLine :=
          glue_take reg lines rest (o.endLine + 1) o.endLine hchain (by omega) h3
        rw [← List.drop_take, ← List.drop_take, htk]
      simp only [spliceLines, hspan]
      have he : o.startLine + 1 + (o.endLine - (o.startLine + 1)) = o.endLine := by omega
      rw [he]
      rw [glue_take reg lines rest (o.endLine + 1) (o.startLine + 1) hchain (by omega) (by omega)]
      rw [glue_drop reg lines rest (o.endLine + 1) o.endLine hchain (by omega) h3]
      simp only [glue, List.drop_zero, Nat.sub_zero, blockReplacement]

/-! ### Whitespace and trimming facts -/

theorem takeWhile_append_all {p : Char → Bool} :
    ∀ (xs ys : List Char), (∀ c ∈ xs, p c = true) →
      (xs ++ ys).takeWhile p = xs ++ ys.takeWhile p := by
  intro xs
  induction xs with
  | nil => intro ys _; rfl
  | cons a as ih =>
    intro ys h
    simp only [List.cons_append, List.takeWhile_cons, h a (by simp), if_true,
      List.cons.injEq, true_and]
    exact ih ys (fun c hc => h c (by simp [hc]))

theorem dropWhile_append_all {p : Char → Bool} :
    ∀ (xs ys : List Char), (∀ c ∈ xs, p c = true) →
      (xs ++ ys).dropWhile p = ys.dropWhile p := by
  intro xs
  induction xs with
  | nil => intro ys _; rfl
  | cons a as ih =>
    intro ys h
    simp only [List.cons_append, List.dropWhile_cons, h a (by simp)]
    exact ih ys (fun c hc => h c (by simp [hc]))

theorem trimEnd_cons_of_not_ws {a : Char} (xs : Line) (ha : isWs a = false) :
    trimEnd (a :: xs) = a :: trimEnd xs := by
  simp only [trimEnd, List.reverse_cons, List.dropWhile_append]
  split
  · next hemp =>
    have hnil : List.dropWhile isWs xs.reverse = [] := by
      cases hdw : List.dropWhile isWs xs.reverse with
      | nil => rfl
      | cons b bs => rw [hdw] at hemp; simp at hemp
    simp [hnil, ha]
  · next hemp =>
    simp [List.reverse_append]

theorem jsTrim_comment (rest : Line) :
    jsTrim ('/' :: '/' :: rest) = '/' :: '/' :: trimEnd rest := by
  rw [jsTrim, List.dropWhile_cons_of_neg (by decide)]
  rw [trimEnd_cons_of_not_ws _ (by decide), trimEnd_cons_of_not_ws _ (by decide)]

theorem jsTrim_cons_ne_nil {c : Char} (cs : Line) (hc : isWs c = false) :
    jsTrim (c :: cs) ≠ [] := by
  rw [jsTrim, List.dropWhile_cons_of_neg (by simp [hc]), trimEnd_cons_of_not_ws _ hc]
  simp

theorem isPrefixOf_self_char : ∀ (xs : Line), xs.isPrefixOf xs = true := by
  intro xs
  induction xs with
  | nil => rfl
  | cons a as ih => simp [List.isPrefixOf, ih]

/-- A line that trims to exactly `//` has an all-whitespace tail after the
comment marker, so its extracted content text is empty. -/
theorem solely_comment_blank {line : Line} (h : jsTrim line = ['/', '/']) :
    (splitCommentLine line).contentText = [] := by
  rw [jsTrim] at h
  have hsplit := List.takeWhile_append_dropWhile (p := isWs) (l := (line.dropWhile isWs).reverse)
  have hrev : (line.dropWhile isWs).reverse.dropWhile isWs = ['/', '/'] := by
    have : ((line.dropWhile isWs).reverse.dropWhile isWs).reverse.reverse = ['/', '/'].reverse := by
      rw [trimEnd] at h
      rw [h]
    simpa using this
  have hd : line.dropWhile isWs =
      '/' :: '/' :: ((line.dropWhile isWs).reverse.takeWhile isWs).reverse := by
    conv_lhs => rw [← List.reverse_reverse (line.dropWhile isWs), ← hsplit, hrev,
      List.reverse_append]
    rfl
  have hw : ∀ c ∈ ((line.dropWhile isWs).reverse.takeWhile isWs).reverse, isWs c = true := by
    intro c hcmem
    exact List.mem_takeWhile_imp (List.mem_reverse.mp hcmem)
  simp only [splitCommentLine]
  rw [hd]
  simp only [List.drop_succ_cons, List.drop_zero]
  exact List.dropWhile_eq_nil_iff.mpr hw

/-! ### The acceptance step of the content extractor -/

/-- One step of the content-collection loop on a non-directive comment
line: the line is consumed exactly when its full comment prefix is at
least as long as the opening directive's, or the line trims to solely
`//`. -/
theorem parseContentAux_step (baseIndent line : Line) (rest : List Line) (i : Nat) (ci : Line)
    (hc : (jsTrim line).take 2 = ['/', '/'])
    (hd : parseTemplateLine line = .ok none)
    (hci : getCommentIndent line = some ci) :
    parseContentAux baseIndent (line :: rest) i =
      (if ci.length ≥ baseIndent.length ∨ jsTrim line = ['/', '/'] then
        (parseContentAux baseIndent rest (i + 1)).map
          (fun r => (splitCommentLine line :: r.1, r.2))
      else .ok ([], i)) := by
  simp only [parseContentAux, hc, hd, hci, if_true]
  by_cases hcond : ci.length ≥ baseIndent.length ∨ jsTrim line = ['/', '/']
  · rw [if_pos hcond, if_pos hcond]
    cases hr : parseContentAux baseIndent rest (i + 1) with
    | error e => simp [Except.map]
    | ok p => obtain ⟨items, nl⟩ := p; simp [Except.map]
  · rw [if_neg hcond, if_neg hcond]

/-! ### Per-occurrence facts from the span invariant -/

theorem spansOk_mem {n : Nat} :
    ∀ {lb : Nat} {occs : List Occurrence}, spansOk n lb occs = true →
      ∀ o ∈ occs, o.startLine < o.endLine ∧ o.endLine ≤ n := by
  intro lb occs
  induction occs generalizing lb with
  | nil => intro _ o ho; simp at ho
  | cons o2 rest ih =>
    intro h o ho
    obtain ⟨h1, h2, h3, hchain⟩ := spansOk_cons.mp h
    rcases List.mem_cons.mp ho with rfl | hh
    · exact ⟨h2, h3⟩
    · exact ih hchain o hh

/-- If no line after position `j` is an `@endblock` (and none is
malformed), the endblock search runs to the end of the file. -/
theorem findEndBlock_all {lines : List Line} {j : Nat} (hj : j ≤ lines.length)
    (h : ∀ line ∈ lines.drop j, parseTemplateLine line ≠ .error () ∧
      parseTemplateLine line ≠ .ok (some .endBlock)) :
    findEndBlock lines j = .ok lines.length := by
  rw [findEndBlock, findEndBlockAux_all _ j h]
  congr 1
  simp only [List.length_drop]
  omega

/-- Computation of `getCommentIndent` on a line starting directly with
the comment marker. -/
theorem getCommentIndent_comment (rest : Line) :
    getCommentIndent ('/' :: '/' :: rest) = some ('/' :: '/' :: rest.takeWhile isWs) := rfl

/-- Computation of `splitCommentLine` on a line starting directly with
the comment marker. -/
theorem splitCommentLine_comment (rest : Line) :
    splitCommentLine ('/' :: '/' :: rest) =
      ⟨[], rest.takeWhile isWs, rest.dropWhile isWs⟩ := rfl

/-- Lookup in a one-entry registry. -/
theorem findInfo_singleton (id : Line) (info : BlockInfo) :
    findInfo [(id, info)] id = some info := by
  simp [findInfo, List.find?]

/-! ## The claims -/

/-- C1: block resolution precedence.  For a registry entry with default
`D`, replaces `[R1, R2]` and appends `[A1, A2]` in discovery order, the
resolver emits the lines of `R2 ++ A1 ++ A2` (only the last replace is
used); with no replaces it emits `D ++ A1 ++ A2`; with neither default nor
replace it emits `A1 ++ A2`; and for an identifier with no registry entry
at all it returns the empty list. -/
theorem claim1_precedence (reg : Registry) (id ind : Line) (D R1 R2 A1 A2 : Contribution) :
    (findInfo reg id = some ⟨some D, [R1, R2], [A1, A2]⟩ →
      generateBlockContent reg id ind =
        (R2.content ++ A1.content ++ A2.content).map (renderItem ind)) ∧
    (findInfo reg id = some ⟨some D, [], [A1, A2]⟩ →
      generateBlockContent reg id ind =
        (D.content ++ A1.content ++ A2.content).map (renderItem ind)) ∧
    (findInfo reg id = some ⟨none, [], [A1, A2]⟩ →
      generateBlockContent reg id ind =
        (A1.content ++ A2.content).map (renderItem ind)) ∧
    (findInfo reg id = none → generateBlockContent reg id ind = []) := by
  refine ⟨?_, ?_, ?_, ?_⟩ <;> intro h <;>
    simp [generateBlockContent, h, List.getLast?, List.getLast, List.foldl, List.append_assoc]

/-- Witness for C1 at concrete registries covering all four cases. -/
theorem claim1_witness :
    (generateBlockContent [(l "X", ⟨some (mkContribution "d"),
        [mkContribution "r1", mkContribution "r2"],
        [mkContribution "a1", mkContribution "a2"]⟩)] (l "X") (l "  ") =
      ((mkContribution "r2").content ++ (mkContribution "a1").content ++
        (mkContribution "a2").content).map (renderItem (l "  "))) ∧
    (generateBlockContent [(l "X", ⟨some (mkContribution "d"), [],
        [mkContribution "a1", mkContribution "a2"]⟩)] (l "X") (l "  ") =
      ((mkContribution "d").content ++ (mkContribution "a1").content ++
        (mkContribution "a2").content).map (renderItem (l "  "))) ∧
    (generateBlockContent [(l "X", ⟨none, [],
        [mkContribution "a1", mkContribution "a2"]⟩)] (l "X") (l "  ") =
      ((mkContribution "a1").content ++ (mkContribution "a2").content).map
        (renderItem (l "  "))) ∧
    (generateBlockContent [] (l "X") (l "  ") = []) :=
  ⟨(claim1_precedence _ _ _ (mkContribution "d") (mkContribution "r1") (mkContribution "r2")
      (mkContribution "a1") (mkContribution "a2")).1 (by decide),
   (claim1_precedence _ _ _ (mkContribution "d") (mkContribution "r1") (mkContribution "r2")
      (mkContribution "a1") (mkContribution "a2")).2.1 (by decide),
   (claim1_precedence _ _ _ (mkContribution "d") (mkContribution "r1") (mkContribution "r2")
      (mkContribution "a1") (mkContribution "a2")).2.2.1 (by decide),
   (claim1_precedence _ _ _ (mkContribution "d") (mkContribution "r1") (mkContribution "r2")
      (mkContribution "a1") (mkContribution "a2")).2.2.2 (by decide)⟩

/-- C2 (refuted as stated; the code is the bug): the engine is not
idempotent.  On `cex2_t0` — a `block_default` whose template body line
itself begins with `//` — the first run produces `cex2_t1`, but the second
run on that output produces the strictly larger `cex2_t2`: the generated
line `// hi` is re-absorbed both as template content and as a preserved
comment, so the file grows on every run. -/
theorem claim2_not_idempotent :
    engineTexts [cex2_t0] = some (.ok [cex2_t1]) ∧
    engineTexts [cex2_t1] = some (.ok [cex2_t2]) ∧
    cex2_t1 ≠ cex2_t2 :=
  ⟨by decide, by decide, by decide⟩

/-- C3: frame preservation.  For every file and the occurrence list the
scanner produced for it, the patcher output is exactly `glue`: all lines
up to and including each opening directive line, that occurrence's
replacement lines, and all lines from its `@endblock` line on — so every
byte outside the spans (including the directive lines, the `@endblock`
lines, and all replace/append source lines, which lie outside every span)
is unchanged. -/
theorem claim3_frame (lines : List Line) (reg0 : Registry) (occs : List Occurrence)
    (reg1 regR : Registry)
    (h : parseFileWith lines reg0 = some (.ok (occs, reg1))) :
    (generateFile regR lines occs).1 = glue regR lines 0 occs :=
  generateFileLoop_frame regR lines occs (parseFileLoop_inv _ lines 0 reg0 occs reg1 h).1

/-- Witness for C3 on a concrete two-block file. -/
theorem claim3_witness :
    (generateFile [] [l "// @block A", l "// @endblock", l "code", l "// @block_default B",
        l "//   x", l "x", l "// @endblock"]
      [⟨.blockMarker, l "A", 0, 1, l "// ", []⟩,
       ⟨.blockDefault, l "B", 3, 6, l "// ", [⟨[], l "   ", l "x", false, l "x"⟩]⟩]).1 =
    glue [] [l "// @block A", l "// @endblock", l "code", l "// @block_default B",
        l "//   x", l "x", l "// @endblock"] 0
      [⟨.blockMarker, l "A", 0, 1, l "// ", []⟩,
       ⟨.blockDefault, l "B", 3, 6, l "// ", [⟨[], l "   ", l "x", false, l "x"⟩]⟩] :=
  claim3_frame _ []
    [⟨.blockMarker, l "A", 0, 1, l "// ", []⟩,
     ⟨.blockDefault, l "B", 3, 6, l "// ", [⟨[], l "   ", l "x", false, l "x"⟩]⟩]
    [(l "A", ⟨none, [], []⟩),
     (l "B", ⟨some ⟨[⟨[], l "   ", l "x", false, l "x"⟩], l "// "⟩, [], []⟩)]
    []
    (by decide)

/-- C4 counterexample: a file whose only occurrence splices an identical
replacement (`cex4_file` has an empty span and resolves to no lines) still
comes out with `modified = true` — the engine writes it even though the
spliced result equals the original text, refuting "identical result is
reported Unchanged and is not written". -/
theorem claim4_counterexample :
    engine [cex4_file] = some (.ok [(cex4_file, true)]) := by decide

/-- C4 amended: a file is reported modified (and written) if and only if
its occurrence list is non-empty — the flag is set by performing a splice,
regardless of whether the spliced result differs from the original
lines. -/
theorem claim4_rewritten_iff (reg : Registry) (lines : List Line) (occs : List Occurrence) :
    (generateFile reg lines occs).2 = !occs.isEmpty := by
  cases occs with
  | nil => rfl
  | cons o rest =>
    simp only [generateFile, generateFileLoop]
    cases hloop : generateFileLoop reg rest lines with
    | mk nl1 m1 =>
      have hkind : o.kind = BlockKind.blockDefault ∨ o.kind = BlockKind.blockMarker := by
        cases o.kind <;> simp
      rw [if_pos hkind]
      simp

/-- C5 counterexample: the claimed acceptance rule compares the widths of
the spaces after `//`, which for `// x` (width 1) against the opening
directive `    // @block X` (width 1) demands acceptance — but the code
compares full comment-prefix lengths (3 against 7) and rejects the line:
the content run is empty and stops at index 0. -/
theorem claim5_counterexample :
    specCommentIndentWidth (l "// x") ≥ specCommentIndentWidth (l "    // @block X") ∧
    parseTemplateContent [l "// x"] 0 ((getCommentIndent (l "    // @block X")).getD []) =
      .ok ⟨[], 0, none⟩ := by
  exact ⟨by decide, by decide⟩

/-- C5 amended: a non-directive comment line is accepted into the body run
exactly when its full comment prefix (leading whitespace ++ `//` ++
following spaces) is at least as long as the opening directive's full
comment prefix, or the line trims to solely `//` (which is always accepted
and records an empty content text, i.e. a blank ContentLine). -/
theorem claim5_acceptance (baseIndent line : Line) (rest : List Line) (i : Nat) (ci : Line)
    (hc : (jsTrim line).take 2 = ['/', '/'])
    (hd : parseTemplateLine line = .ok none)
    (hci : getCommentIndent line = some ci) :
    parseContentAux baseIndent (line :: rest) i =
      (if ci.length ≥ baseIndent.length ∨ jsTrim line = ['/', '/'] then
        (parseContentAux baseIndent rest (i + 1)).map
          (fun r => (splitCommentLine line :: r.1, r.2))
      else .ok ([], i)) ∧
    (jsTrim line = ['/', '/'] → (splitCommentLine line).contentText = []) :=
  ⟨parseContentAux_step baseIndent line rest i ci hc hd hci, fun h => solely_comment_blank h⟩

/-- Witness for C5 at an accepted concrete line. -/
theorem claim5_witness :
    (parseContentAux (l "// ") [l "//  a"] 0 =
      (if (l "//  ").length ≥ (l "// ").length ∨ jsTrim (l "//  a") = ['/', '/'] then
        (parseContentAux (l "// ") [] 1).map
          (fun r => (splitCommentLine (l "//  a") :: r.1, r.2))
      else .ok ([], 0))) ∧
    (jsTrim (l "//  a") = ['/', '/'] → (splitCommentLine (l "//  a")).contentText = []) :=
  claim5_acceptance (l "// ") (l "//  a") [] 0 (l "//  ") (by decide) (by decide) (by decide)

/-- C6: malformed-directive error handling.  If any line of any file of
the set is a block-role directive with an argument count other than one,
the whole run aborts with the pass-1 error and produces no outputs; and a
file set with no such line never raises this error. -/
theorem claim6_malformed_fatal (files : List (List Line)) :
    ((∃ f ∈ files, ∃ line ∈ f, parseTemplateLine line = .error ()) →
      engine files = some (.error ())) ∧
    ((∀ f ∈ files, ∀ line ∈ f, parseTemplateLine line ≠ .error ()) →
      ∃ outs, engine files = some (.ok outs)) := by
  constructor
  · intro hex
    simp only [engine, parsePass_error_of_error files [] hex]
  · intro hno
    obtain ⟨outs, regF, hps⟩ := parsePass_ok_of_no_error files [] hno
    exact ⟨(files.zip outs).map (fun p => generateFile regF p.1 p.2), by simp only [engine, hps]⟩

/-- Witness for C6: a malformed `@block_default` with no argument aborts;
a well-formed file set runs to completion. -/
theorem claim6_witness :
    engine [[l "// @block_default"]] = some (.error ()) ∧
    (∃ outs, engine [[l "// @block X", l "// @endblock"]] = some (.ok outs)) :=
  ⟨(claim6_malformed_fatal [[l "// @block_default"]]).1 (by decide),
   (claim6_malformed_fatal [[l "// @block X", l "// @endblock"]]).2 (by decide)⟩

/-- C7: indentation round-trip.  A template body of two comment lines at
equal comment indentation `S` parses to content items whose final contents
are the indentation-stripped texts, and instantiating that block with
existing indentation four spaces emits exactly four spaces followed by
each line's stripped text (equal relative indentation preserved); the
existing indentation itself is what the patcher extracts from a span whose
first pre-existing generated code line starts with four spaces. -/
theorem claim7_roundtrip (S : Line) (c1 c2 : Char) (r1 r2 : Line) (bid baseIndent : Line)
    (hS : ∀ c ∈ S, isWs c = true)
    (hc1 : isWs c1 = false) (hc2 : isWs c2 = false)
    (hd1 : parseTemplateLine ('/' :: '/' :: (S ++ c1 :: r1)) = .ok none)
    (hd2 : parseTemplateLine ('/' :: '/' :: (S ++ c2 :: r2)) = .ok none)
    (hb : baseIndent.length ≤ S.length + 2) :
    parseTemplateContent ['/' :: '/' :: (S ++ c1 :: r1), '/' :: '/' :: (S ++ c2 :: r2)] 0
        baseIndent =
      .ok ⟨[⟨[], S, c1 :: r1, false, c1 :: r1⟩, ⟨[], S, c2 :: r2, false, c2 :: r2⟩], 2, some S⟩ ∧
    generateBlockContent
        [(bid, ⟨some ⟨[⟨[], S, c1 :: r1, false, c1 :: r1⟩, ⟨[], S, c2 :: r2, false, c2 :: r2⟩],
          baseIndent⟩, [], []⟩)] bid (l "    ") =
      [l "    " ++ c1 :: r1, l "    " ++ c2 :: r2] ∧
    (∀ (c3 : Char) (r3 : Line) (rest2 : List Line), isWs c3 = false →
      (jsTrim (l "    " ++ c3 :: r3)).take 2 ≠ ['/', '/'] →
      existingIndentScan ((l "    " ++ c3 :: r3) :: rest2) = l "    ") := by
  have hsplit1 : splitCommentLine ('/' :: '/' :: (S ++ c1 :: r1)) = ⟨[], S, c1 :: r1⟩ := by
    rw [splitCommentLine_comment, takeWhile_append_all S _ hS,
      List.takeWhile_cons_of_neg (by simp [hc1]), List.append_nil,
      dropWhile_append_all S _ hS, List.dropWhile_cons_of_neg (by simp [hc1])]
  have hsplit2 : splitCommentLine ('/' :: '/' :: (S ++ c2 :: r2)) = ⟨[], S, c2 :: r2⟩ := by
    rw [splitCommentLine_comment, takeWhile_append_all S _ hS,
      List.takeWhile_cons_of_neg (by simp [hc2]), List.append_nil,
      dropWhile_append_all S _ hS, List.dropWhile_cons_of_neg (by simp [hc2])]
  have hci1 : getCommentIndent ('/' :: '/' :: (S ++ c1 :: r1)) = some ('/' :: '/' :: S) := by
    rw [getCommentIndent_comment, takeWhile_append_all S _ hS,
      List.takeWhile_cons_of_neg (by simp [hc1]), List.append_nil]
  have hci2 : getCommentIndent ('/' :: '/' :: (S ++ c2 :: r2)) = some ('/' :: '/' :: S) := by
    rw [getCommentIndent_comment, takeWhile_append_all S _ hS,
      List.takeWhile_cons_of_neg (by simp [hc2]), List.append_nil]
  have htrim1 : jsTrim (c1 :: r1) ≠ [] := jsTrim_cons_ne_nil r1 hc1
  have htrim2 : jsTrim (c2 :: r2) ≠ [] := jsTrim_cons_ne_nil r2 hc2
  have hcl1 : (jsTrim ('/' :: '/' :: (S ++ c1 :: r1))).take 2 = ['/', '/'] := by
    rw [jsTrim_comment]; rfl
  have hcl2 : (jsTrim ('/' :: '/' :: (S ++ c2 :: r2))).take 2 = ['/', '/'] := by
    rw [jsTrim_comment]; rfl
  have hrun : parseContentAux baseIndent
      ['/' :: '/' :: (S ++ c1 :: r1), '/' :: '/' :: (S ++ c2 :: r2)] 0 =
      .ok ([⟨[], S, c1 :: r1⟩, ⟨[], S, c2 :: r2⟩], 2) := by
    rw [parseContentAux_step baseIndent _ _ 0 _ hcl1 hd1 hci1]
    rw [if_pos (Or.inl (by simp only [List.length_cons, List.length_append]; omega))]
    rw [parseContentAux_step baseIndent _ _ 1 _ hcl2 hd2 hci2]
    rw [if_pos (Or.inl (by simp only [List.length_cons, List.length_append]; omega))]
    simp [parseContentAux, Except.map, hsplit1, hsplit2]
  have hitems : templateIndentOf [⟨[], S, c1 :: r1⟩, ⟨[], S, c2 :: r2⟩] = some S := by
    simp only [templateIndentOf, List.find?]
    cases hjt : jsTrim (c1 :: r1) with
    | nil => exact absurd hjt htrim1
    | cons a as => simp
  have hempty1 : (jsTrim (c1 :: r1)).isEmpty = false := by
    cases hjt : jsTrim (c1 :: r1) with
    | nil => exact absurd hjt htrim1
    | cons a as => rfl
  have hempty2 : (jsTrim (c2 :: r2)).isEmpty = false := by
    cases hjt : jsTrim (c2 :: r2) with
    | nil => exact absurd hjt htrim2
    | cons a as => rfl
  have hfinal1 : finalContentOf (some S) ⟨[], S, c1 :: r1⟩ = c1 :: r1 := by
    rw [finalContentOf]
    rw [if_neg (by simpa using htrim1)]
    simp only [isPrefixOf_self_char, if_pos]
    rw [List.drop_length]
    rfl
  have hfinal2 : finalContentOf (some S) ⟨[], S, c2 :: r2⟩ = c2 :: r2 := by
    rw [finalContentOf]
    rw [if_neg (by simpa using htrim2)]
    simp only [isPrefixOf_self_char, if_pos]
    rw [List.drop_length]
    rfl
  refine ⟨?_, ?_, ?_⟩
  · rw [parseTemplateContent]
    simp only [List.drop_zero, hrun, hitems]
    simp [ContentItem.ofRaw, hfinal1, hfinal2, hempty1, hempty2]
  · simp only [generateBlockContent, findInfo_singleton]
    simp [renderItem]
  · intro c3 r3 rest2 h3 hnc
    have htrim3 : jsTrim (l "    " ++ c3 :: r3) ≠ [] := by
      rw [jsTrim, dropWhile_append_all _ _ (by decide),
        List.dropWhile_cons_of_neg (by simp [h3]), trimEnd_cons_of_not_ws _ h3]
      simp
    simp only [existingIndentScan]
    rw [if_pos ⟨htrim3, hnc⟩]
    rw [takeWhile_append_all _ _ (by decide), List.takeWhile_cons_of_neg (by simp [h3])]
    rfl

/-- Witness for C7 at a concrete two-line template body. -/
theorem claim7_witness :
    parseTemplateContent ['/' :: '/' :: (l "   " ++ 'a' :: l "1"),
        '/' :: '/' :: (l "   " ++ 'b' :: l "2")] 0 (l "// ") =
      .ok ⟨[⟨[], l "   ", 'a' :: l "1", false, 'a' :: l "1"⟩,
        ⟨[], l "   ", 'b' :: l "2", false, 'b' :: l "2"⟩], 2, some (l "   ")⟩ ∧
    generateBlockContent
        [(l "B", ⟨some ⟨[⟨[], l "   ", 'a' :: l "1", false, 'a' :: l "1"⟩,
          ⟨[], l "   ", 'b' :: l "2", false, 'b' :: l "2"⟩], l "// "⟩, [], []⟩)]
        (l "B") (l "    ") =
      [l "    " ++ 'a' :: l "1", l "    " ++ 'b' :: l "2"] ∧
    (∀ (c3 : Char) (r3 : Line) (rest2 : List Line), isWs c3 = false →
      (jsTrim (l "    " ++ c3 :: r3)).take 2 ≠ ['/', '/'] →
      existingIndentScan ((l "    " ++ c3 :: r3) :: rest2) = l "    ") :=
  claim7_roundtrip (l "   ") 'a' 'b' (l "1") (l "2") (l "B") (l "// ")
    (by decide) (by decide) (by decide) (by decide) (by decide) (by decide)

/-- C8: an unterminated `block_default`/`block` is not an error.  For any
file with no malformed directive, the scan completes normally, and every
recorded occurrence with no `@endblock` line anywhere after its start line
gets a span silently extending to the end of the file. -/
theorem claim8_unterminated (lines : List Line)
    (hno : ∀ line ∈ lines, parseTemplateLine line ≠ .error ()) :
    ∃ occs reg, parseFileWith lines [] = some (.ok (occs, reg)) ∧
      ∀ occ ∈ occs,
        (∀ line ∈ lines.drop (occ.startLine + 1),
          parseTemplateLine line ≠ .ok (some .endBlock)) →
        occ.endLine = lines.length := by
  have hs := parseFileWith_isSome lines []
  cases hfw : parseFileWith lines [] with
  | none => rw [hfw] at hs; simp at hs
  | some r =>
    obtain ⟨⟨occs, reg⟩, hx⟩ := parseFileLoop_ok_of_no_error _ lines 0 [] r hno hfw
    subst hx
    refine ⟨occs, reg, rfl, ?_⟩
    intro occ hocc hnoeb
    have hinv := parseFileLoop_inv _ lines 0 [] occs reg hfw
    have hfe := hinv.2 occ hocc
    have hbounds := spansOk_mem hinv.1 occ hocc
    have hall : ∀ line ∈ lines.drop (occ.startLine + 1),
        parseTemplateLine line ≠ .error () ∧ parseTemplateLine line ≠ .ok (some .endBlock) :=
      fun line hl => ⟨hno line (List.drop_subset _ _ hl), hnoeb line hl⟩
    have heof := findEndBlock_all (by omega) hall
    rw [hfe] at heof
    exact Except.ok.inj heof

/-- Witness for C8 on a concrete unterminated file. -/
theorem claim8_witness :
    ∃ occs reg,
      parseFileWith [l "// @block_default X", l "//  a"] [] = some (.ok (occs, reg)) ∧
      ∀ occ ∈ occs,
        (∀ line ∈ [l "// @block_default X", l "//  a"].drop (occ.startLine + 1),
          parseTemplateLine line ≠ .ok (some .endBlock)) →
        occ.endLine = [l "// @block_default X", l "//  a"].length :=
  claim8_unterminated [l "// @block_default X", l "//  a"] (by decide)

/-- C9: disjoint-spans invariant.  The occurrences recorded by the scanner
have strictly increasing start lines and pairwise disjoint spans — each
occurrence's end line is strictly below the next occurrence's start line —
and every span is non-degenerate and ends within the file. -/
theorem claim9_disjoint_spans (lines : List Line) (reg0 : Registry) (occs : List Occurrence)
    (reg1 : Registry) (h : parseFileWith lines reg0 = some (.ok (occs, reg1))) :
    spansOk lines.length 0 occs = true :=
  (parseFileLoop_inv _ lines 0 reg0 occs reg1 h).1

/-- Witness for C9 on a concrete two-block file. -/
theorem claim9_witness :
    spansOk ([l "x", l "// @block_default A", l "//  a", l "a", l "// @endblock",
        l "// @block B", l "// @endblock"].length) 0
      [⟨.blockDefault, l "A", 1, 4, l "// ", [⟨[], l "  ", l "a", false, l "a"⟩]⟩,
       ⟨.blockMarker, l "B", 5, 6, l "// ", []⟩] = true :=
  claim9_disjoint_spans
    [l "x", l "// @block_default A", l "//  a", l "a", l "// @endblock",
      l "// @block B", l "// @endblock"] []
    [⟨.blockDefault, l "A", 1, 4, l "// ", [⟨[], l "  ", l "a", false, l "a"⟩]⟩,
     ⟨.blockMarker, l "B", 5, 6, l "// ", []⟩]
    [(l "A", ⟨some ⟨[⟨[], l "  ", l "a", false, l "a"⟩], l "// "⟩, [], []⟩),
     (l "B", ⟨none, [], []⟩)]
    (by decide)

/-- C10: scanner termination.  The scan index strictly increases each
iteration (the content extractor's stop index never precedes its start
index and the endblock search never returns before its start), so the
scanner loop completes whenever the fuel exceeds the number of remaining
lines; in particular `parseFileWith`, which supplies `length + 1` fuel,
is defined on every input. -/
theorem claim10_termination :
    (∀ (lines : List Line) (i : Nat) (reg : Registry) (fuel : Nat),
      lines.length - i < fuel → (parseFileLoop fuel lines i reg).isSome) ∧
    (∀ (base : Line) (ls : List Line) (i : Nat) (items : List RawContent) (nl : Nat),
      parseContentAux base ls i = .ok (items, nl) → i ≤ nl) ∧
    (∀ (lines : List Line) (j e : Nat), findEndBlock lines j = .ok e → j ≤ e) ∧
    (∀ (lines : List Line) (reg : Registry), (parseFileWith lines reg).isSome) :=
  ⟨fun lines i reg fuel h => parseFileLoop_isSome fuel lines i reg h,
   fun base ls i items nl h => (parseContentAux_le base ls i items nl h).1,
   fun _ _ _ h => (findEndBlock_le h).1,
   fun lines reg => parseFileWith_isSome lines reg⟩

/-- Witness for C10 at concrete inputs. -/
theorem claim10_witness :
    (parseFileLoop 1 [] 0 []).isSome ∧ (5 : Nat) ≤ 5 ∧ (0 : Nat) ≤ 0 ∧
      (parseFileWith [l "// @block X", l "// @endblock"] []).isSome :=
  ⟨claim10_termination.1 [] 0 [] 1 (by decide),
   claim10_termination.2.1 [] [] 5 [] 5 rfl,
   claim10_termination.2.2.1 [l "// @endblock"] 0 0 (by decide),
   claim10_termination.2.2.2 [l "// @block X", l "// @endblock"] []⟩

end Tmpl
